import Mathlib

/-!
Verification development for the MCTS search subsystem of the Monty chess
engine. Rust sources are shallowly embedded: machine integers become `Nat`
or `Int` (overflow is noted where it matters), `f32`/`f64` computations on
quantised values become exact `Rat` arithmetic where the source only
multiplies, divides and floors by powers of two, and the transcendental
selection formulas (`exp`, `ln`, `sqrt`) become functions over `Real`.
Stateful atomic code is embedded as explicit state passing; the sequential
semantics of each operation is modelled (memory-ordering concerns are out
of scope of the claims treated here).
-/

namespace Monty

/-! ## Node storage and quantised value aggregation (src/src/tree/node.rs)

`QUANT` is the fixed-point scale for Q. A `Node` aggregates `visits`,
`sum_q` and `sum_sq_q` in relaxed atomics; we embed the three counters as
a record and `update` / `q` as pure state transformers. The Rust cast
`expr as u64` on a nonnegative float truncates toward zero, i.e. takes the
floor; on a negative float it saturates to zero, hence `Int.toNat ∘ Int.floor`.
-/

def QUANT : ℕ := 16384 * 4

/-- The atomic statistics fields of `Node` that value backup touches. -/
structure NodeQ where
  visits : ℕ
  sum_q : ℕ
  sum_sq_q : ℕ
  deriving DecidableEq, Repr

/-- A freshly cleared node: `Node::clear` zeroes visits, sum_q, sum_sq_q. -/
def NodeQ.cleared : NodeQ := ⟨0, 0, 0⟩

/-- Rust `(f64::from(q) * f64::from(QUANT)) as u64` from `Node::update`. -/
def quantQ (q : ℚ) : ℕ := (⌊q * (QUANT : ℚ)⌋).toNat

/-- Rust `Node::update(q)`: three fetch-adds (visits, sum_q, sum_sq_q); returns
the new state and the returned mean `((q + old_q) / (1 + old_v)) / QUANT`,
where the inner division is `u64` integer division. -/
def NodeQ.update (n : NodeQ) (q : ℚ) : NodeQ × ℚ :=
  let s := quantQ q
  (⟨n.visits + 1, n.sum_q + s, n.sum_sq_q + s * s⟩,
   (((s + n.sum_q) / (1 + n.visits) : ℕ) : ℚ) / (QUANT : ℚ))

/-- Rust `Node::q64` (and `Node::q`): zero when unvisited, else the integer
division `sum_q / visits` rescaled by `QUANT`. The final `f64` and `f32`
conversions are exact for the value ranges produced by a single update. -/
def NodeQ.q (n : NodeQ) : ℚ :=
  if n.visits = 0 then 0
  else ((n.sum_q / n.visits : ℕ) : ℚ) / (QUANT : ℚ)

/-- The backpropagation tail of `perform_one` (src/src/mcts/iteration.rs,
lines 108-116): flip the value returned from below (`u = 1.0 - u`), fold it
into this node via `update`, and hand the flipped value to the caller. -/
def performOneBackprop (n : NodeQ) (u : ℚ) : NodeQ × ℚ :=
  let u2 := 1 - u
  ((n.update u2).1, u2)

/-! ## Transposition table (src/src/tree/hash.rs)

Each bucket entry is a pair of `AtomicU64` words: a full 64-bit `key` and a
packed `data` word holding `visits` in the high 32 bits and a fixed-point Q
(scale `2^32`) in the low 32 bits. Floats in `pack_data` / `update_entry`
are `f64`; the products and divisions involved are embedded exactly over
`Rat` (the `f64` rounding of the moving average is below the quantisation
granularity tracked by the claims). The backing vector is embedded as a
total function from indices; `push` and `get` only ever touch the two
indices `hash & mask` and `(hash & mask) ^ 1`.
-/

def Q_SCALE : ℕ := 2 ^ 32

/-- The in-memory entry: `key: AtomicU64`, `data: AtomicU64`. -/
structure HashEntryInternal where
  key : ℕ
  data : ℕ
  deriving DecidableEq, Repr

/-- The decoded entry returned to callers. -/
structure HashEntry where
  q : ℚ
  visits : ℕ
  deriving DecidableEq, Repr

/-- Rust `HashEntryInternal::unpack_data`. -/
def unpackData (data : ℕ) : ℕ × ℚ :=
  (data >>> 32, ((data &&& (2 ^ 32 - 1) : ℕ) : ℚ) / (Q_SCALE : ℚ))

/-- The quantisation step of `HashEntryInternal::pack_data`:
`(q * Q_SCALE).min((u32::MAX as f64) - 1.0) as u32` — the `as u32` cast
truncates toward zero and saturates at zero below. -/
def quantize32 (q : ℚ) : ℕ := (min ⌊q * (Q_SCALE : ℚ)⌋ (2 ^ 32 - 2)).toNat

/-- Rust `HashEntryInternal::pack_data`: visits in the high 32 bits, quantised Q
in the low 32 bits. -/
def packData (visits : ℕ) (q : ℚ) : ℕ :=
  visits <<< 32 ||| quantize32 q

structure HashTable where
  mask : ℕ
  table : ℕ → HashEntryInternal

/-- Rust `usize::next_power_of_two` (fuel-structured so that the kernel can
evaluate it; 64 steps cover every `u64`-sized request): the least power of
two that is at least `n`, with 0 and 1 both mapping to 1. -/
def nextPow2Aux : ℕ → ℕ → ℕ
  | 0, _ => 1
  | fuel + 1, n => if n ≤ 1 then 1 else 2 * nextPow2Aux fuel ((n + 1) / 2)

def nextPowerOfTwo (n : ℕ) : ℕ := nextPow2Aux 64 n

/-- Rust `HashTable::new`: size is rounded up to a power of two, the backing
store is zeroed (the parallel zeroing over `threads` chunks has the same
sequential result). -/
def HashTable.new (size : ℕ) (_threads : ℕ) : HashTable :=
  { mask := nextPowerOfTwo size - 1, table := fun _ => ⟨0, 0⟩ }

/-- Rust `HashTable::clear`: rezeroes the backing store. -/
def HashTable.clear (t : HashTable) (_threads : ℕ) : HashTable :=
  { t with table := fun _ => ⟨0, 0⟩ }

/-- One atomic slot store. -/
def HashTable.setEntry (t : HashTable) (i : ℕ) (e : HashEntryInternal) : HashTable :=
  { t with table := fun j => if j = i then e else t.table j }

/-- Rust `HashTable::read_entry`: accept only on key match. (The second key
load of the Rust code re-reads the same value in sequential semantics.) -/
def readEntry (e : HashEntryInternal) (hash : ℕ) : Option HashEntry :=
  if e.key = hash then
    some ⟨(unpackData e.data).2, (unpackData e.data).1⟩
  else
    none

/-- Rust `HashTable::get`: probe the primary slot `hash & mask`, then the
secondary slot `(hash & mask) ^ 1`. -/
def HashTable.get (t : HashTable) (hash : ℕ) : Option HashEntry :=
  let idx := hash &&& t.mask
  match readEntry (t.table idx) hash with
  | some e => some e
  | none => readEntry (t.table (idx ^^^ 1)) hash

/-- Rust `HashTable::update_entry`: bump visits (u32 saturating add) and fold
`val` into the stored Q by a moving average. -/
def updatedEntry (e : HashEntryInternal) (val : ℚ) : HashEntryInternal :=
  let visits := (unpackData e.data).1
  let q := (unpackData e.data).2
  let newVisits := min (visits + 1) (2 ^ 32 - 1)
  let newQ := q + (val - q) / (newVisits : ℚ)
  ⟨e.key, packData newVisits newQ⟩

/-- Rust `HashTable::overwrite_entry`: store data `(visits = 1, q = val)` and
then the key. -/
def freshEntry (hash : ℕ) (val : ℚ) : HashEntryInternal :=
  ⟨hash, packData 1 val⟩

/-- Rust `HashTable::push`: try a matching-key update in either slot of the
bucket pair, else insert into the first zero-key slot, else victimise,
keeping the higher-visit incumbent in slot 0 and writing the new entry
into slot 1. -/
def HashTable.push (t : HashTable) (hash : ℕ) (val : ℚ) : HashTable :=
  let idx0 := hash &&& t.mask
  let idx1 := idx0 ^^^ 1
  let e0 := t.table idx0
  let e1 := t.table idx1
  if e0.key = hash then
    t.setEntry idx0 (updatedEntry e0 val)
  else if e1.key = hash then
    t.setEntry idx1 (updatedEntry e1 val)
  else if e0.key = 0 then
    t.setEntry idx0 (freshEntry hash val)
  else if e1.key = 0 then
    t.setEntry idx1 (freshEntry hash val)
  else if (unpackData e1.data).1 > (unpackData e0.data).1 then
    ((t.setEntry idx0 e1).setEntry idx1 (freshEntry hash val))
  else
    t.setEntry idx1 (freshEntry hash val)

/-! ## Tunable parameters (src/src/mcts/params.rs)

`Param<i32>::set` clamps the raw integer; `Param<f32>::set` and
`Param<f64>::set` divide by 1000 first and clamp the quotient. The float
types are embedded as `Rat` (`val as f32 / 1000.0` rounds, but every
default, bound and quotient here is exactly representable at the
granularity the claims compare). The `make_mcts_params!` macro expands to a
flat struct with one match arm per field name in `set`; we embed it as an
association list in source order, with `set` mapping the matching name to
its clamped value and leaving everything else unchanged. -/

/-- Rust `Ord::clamp`: below min goes to min, above max goes to max. -/
def rustClampI (v lo hi : ℤ) : ℤ := if v < lo then lo else if v > hi then hi else v

def rustClampQ (v lo hi : ℚ) : ℚ := if v < lo then lo else if v > hi then hi else v

/-- Rust `Param<i32>`. -/
structure ParamI where
  val : ℤ
  min : ℤ
  max : ℤ
  deriving DecidableEq, Repr

/-- Rust `Param<i32>::set`: no scaling, clamp the raw value. -/
def ParamI.set (p : ParamI) (v : ℤ) : ParamI :=
  ⟨rustClampI v p.min p.max, p.min, p.max⟩

/-- Rust `Param<f32>` and `Param<f64>`. -/
structure ParamF where
  val : ℚ
  min : ℚ
  max : ℚ
  deriving DecidableEq, Repr

/-- Rust `Param<f32>::set` / `Param<f64>::set`: divide by 1000, then clamp. -/
def ParamF.set (p : ParamF) (v : ℤ) : ParamF :=
  ⟨rustClampQ ((v : ℚ) / 1000) p.min p.max, p.min, p.max⟩

inductive PVal where
  | int (p : ParamI)
  | flt (p : ParamF)
  deriving DecidableEq, Repr

def PVal.set : PVal → ℤ → PVal
  | .int p, v => .int (p.set v)
  | .flt p, v => .flt (p.set v)

def PVal.wfRange : PVal → Prop
  | .int p => p.min ≤ p.max
  | .flt p => p.min ≤ p.max

def PVal.inRange : PVal → Prop
  | .int p => p.min ≤ p.val ∧ p.val ≤ p.max
  | .flt p => p.min ≤ p.val ∧ p.val ≤ p.max

instance : ∀ p : PVal, Decidable p.wfRange
  | .int _ => inferInstanceAs (Decidable (_ ≤ _))
  | .flt _ => inferInstanceAs (Decidable (_ ≤ _))

instance : ∀ p : PVal, Decidable p.inRange
  | .int _ => inferInstanceAs (Decidable (_ ∧ _))
  | .flt _ => inferInstanceAs (Decidable (_ ∧ _))

/-- The `make_mcts_params!` table: (name, default, min, max) in source
order; SPSA step sizes and learning rates do not participate in `set`. -/
def MctsParams.default : List (String × PVal) := [
  ("root_pst", .flt ⟨3.133, 1.0, 10.0⟩),
  ("depth_2_pst", .flt ⟨1.189, 1.0, 10.0⟩),
  ("winning_pst_threshold", .flt ⟨0.610, 0.0, 1.0⟩),
  ("winning_pst_max", .flt ⟨1.618, 0.1, 10.0⟩),
  ("root_cpuct", .flt ⟨0.405, 0.1, 5.0⟩),
  ("cpuct", .flt ⟨0.261, 0.1, 5.0⟩),
  ("cpuct_var_weight", .flt ⟨0.801, 0.0, 2.0⟩),
  ("cpuct_var_scale", .flt ⟨0.275, 0.0, 2.0⟩),
  ("cpuct_visits_scale", .flt ⟨36.779, 1.0, 512.0⟩),
  ("expl_tau", .flt ⟨0.675, 0.1, 1.0⟩),
  ("gini_base", .flt ⟨0.461, 0.2, 2.0⟩),
  ("gini_ln_multiplier", .flt ⟨1.536, 0.4, 3.0⟩),
  ("gini_min", .flt ⟨2.256, 0.5, 4.0⟩),
  ("knight_value", .int ⟨438, 250, 750⟩),
  ("bishop_value", .int ⟨399, 250, 750⟩),
  ("rook_value", .int ⟨746, 400, 1000⟩),
  ("queen_value", .int ⟨1508, 900, 1600⟩),
  ("material_offset", .int ⟨575, 400, 1200⟩),
  ("material_div1", .int ⟨37, 16, 64⟩),
  ("material_div2", .int ⟨1215, 512, 1536⟩),
  ("tm_opt_value1", .flt ⟨0.630, 0.1, 1.2⟩),
  ("tm_opt_value2", .flt ⟨0.428, 0.1, 1.0⟩),
  ("tm_opt_value3", .flt ⟨0.669, 0.1, 1.2⟩),
  ("tm_optscale_value1", .flt ⟨1.643, 0.1, 2.0⟩),
  ("tm_optscale_value2", .flt ⟨2.359, 0.1, 5.0⟩),
  ("tm_optscale_value3", .flt ⟨0.491, 0.1, 1.0⟩),
  ("tm_optscale_value4", .flt ⟨0.258, 0.1, 1.0⟩),
  ("tm_max_value1", .flt ⟨2.953, 1.0, 10.0⟩),
  ("tm_max_value2", .flt ⟨2.763, 1.0, 10.0⟩),
  ("tm_max_value3", .flt ⟨2.756, 1.0, 10.0⟩),
  ("tm_maxscale_value1", .flt ⟨13.705, 1.0, 24.0⟩),
  ("tm_maxscale_value2", .flt ⟨5.023, 1.0, 12.0⟩),
  ("tm_bonus_ply", .flt ⟨11.417, 1.0, 30.0⟩),
  ("tm_bonus_value1", .flt ⟨0.473, 0.1, 2.0⟩),
  ("tm_max_time", .flt ⟨0.903, 0.400, 0.990⟩),
  ("tm_mtg", .int ⟨27, 10, 60⟩),
  ("tm_falling_eval1", .flt ⟨0.054, 0.0, 0.2⟩),
  ("tm_falling_eval2", .flt ⟨0.719, 0.1, 1.0⟩),
  ("tm_falling_eval3", .flt ⟨1.622, 0.1, 3.0⟩),
  ("tm_bmi1", .flt ⟨0.255, 0.1, 1.0⟩),
  ("tm_bmi2", .flt ⟨0.874, 0.1, 2.0⟩),
  ("tm_bmi3", .flt ⟨3.259, 0.1, 6.4⟩),
  ("tm_bmv1", .flt ⟨3.619, 0.1, 5.0⟩),
  ("tm_bmv2", .flt ⟨0.351, 0.1, 1.0⟩),
  ("tm_bmv3", .flt ⟨0.499, 0.1, 1.0⟩),
  ("tm_bmv4", .flt ⟨2.643, 0.1, 8.0⟩),
  ("tm_bmv5", .flt ⟨0.632, 0.1, 1.0⟩),
  ("tm_bmv6", .flt ⟨1.888, 0.1, 3.0⟩)]

/-- Rust `MctsParams::set(name, val)`: the matching field is set (clamped); an
unknown name only prints a message and changes nothing. -/
def MctsParams.set (ps : List (String × PVal)) (name : String) (v : ℤ) :
    List (String × PVal) :=
  ps.map fun e => if e.1 = name then (e.1, e.2.set v) else e

/-! ## PUCT selection (src/src/mcts/iteration.rs pick_action and
src/src/mcts/helpers.rs)

The transcendental selection arithmetic (`exp`, `ln`, `sqrt`) is embedded
over `Real`. `SearchParams` is the accessor interface of `MctsParams` that
selection reads (the `cpuct_var_warmup` accessor is referenced by
helpers.rs; its declared range is not present in params.rs in this
snapshot, so it is simply a real-valued input here), and `NodeView` is the
accessor interface of a `Node`: `visits()`, `q()`, `var()`,
`gini_impurity()`, `policy()` and `threads()`. -/

noncomputable section RealSelection

structure SearchParams where
  root_cpuct : ℝ
  cpuct : ℝ
  cpuct_visits_scale : ℝ
  cpuct_var_weight : ℝ
  cpuct_var_scale : ℝ
  cpuct_var_warmup : ℝ
  expl_tau : ℝ
  gini_base : ℝ
  gini_ln_multiplier : ℝ
  gini_min : ℝ
  virtual_loss_weight : ℝ

structure NodeView where
  visits : ℕ
  q : ℝ
  var : ℝ
  gini : ℝ
  policy : ℝ
  threads : ℕ

/-- Rust `SearchHelpers::get_cpuct`. -/
def getCpuct (params : SearchParams) (node : NodeView) (isRoot : Bool) : ℝ :=
  let base := if isRoot then params.root_cpuct else params.cpuct
  let scale := params.cpuct_visits_scale * 128
  let c1 := base * (1 + Real.log (((node.visits : ℝ) + scale) / scale))
  if 1 < node.visits then
    let frac0 := Real.sqrt node.var / params.cpuct_var_scale
    let frac := frac0 + (1 - frac0) / (1 + params.cpuct_var_warmup * (node.visits : ℝ))
    c1 * (1 + params.cpuct_var_weight * (frac - 1))
  else
    c1

/-- Rust `SearchHelpers::base_explore_scaling`:
`(expl_tau * (visits.max(1) as f32).ln()).exp()`. -/
def baseExploreScaling (params : SearchParams) (node : NodeView) : ℝ :=
  Real.exp (params.expl_tau * Real.log ((max node.visits 1 : ℕ) : ℝ))

/-- Rust `SearchHelpers::get_explore_scaling`, normal (non-datagen) formula:
the gini factor `(gini_base - gini_ln_multiplier * ln(gini + 0.001))`
capped above by `gini_min`. -/
def getExploreScaling (params : SearchParams) (node : NodeView) : ℝ :=
  baseExploreScaling params node *
    min (params.gini_base - params.gini_ln_multiplier * Real.log (node.gini + 0.001))
      params.gini_min

/-- Rust `SearchHelpers::get_fpu`. -/
def getFpu (node : NodeView) : ℝ := 1 - node.q

/-- Rust `SearchHelpers::get_action_value`. -/
def getActionValue (node : NodeView) (fpu : ℝ) : ℝ :=
  if node.visits = 0 then fpu else node.q

/-- The virtual-loss adjustment applied inside the `pick_action` closure:
a child being descended through by at least one worker has its action value
shrunk by `V / (V + 1 + w (T - 1))`. -/
def vlAdjustedQ (params : SearchParams) (parent child : NodeView) : ℝ :=
  let q0 := getActionValue child (getFpu parent)
  if 0 < child.threads then
    q0 * (child.visits : ℝ)
      / ((child.visits : ℝ) + 1 + params.virtual_loss_weight * ((child.threads : ℝ) - 1))
  else
    q0

/-- The per-child score computed by `pick_action` (iteration.rs, lines
128-153): virtual-loss-adjusted Q plus
`expl * policy / (1 + visits)` with `expl = cpuct * explore_scale`. -/
def pickScore (params : SearchParams) (parent child : NodeView) (isRoot : Bool) : ℝ :=
  let cpuct := getCpuct params parent isRoot
  let explScale := getExploreScaling params parent
  let expl := cpuct * explScale
  vlAdjustedQ params parent child + expl * child.policy / (1 + (child.visits : ℝ))

/-- The exploration term the code actually adds to the adjusted Q. -/
def uTerm (params : SearchParams) (parent child : NodeView) (isRoot : Bool) : ℝ :=
  getCpuct params parent isRoot * getExploreScaling params parent * child.policy
    / (1 + (child.visits : ℝ))

/-- The exploration term as claimed, with an additional `√N_parent`
factor on top of `explore_scale`. -/
def claimedUTerm (params : SearchParams) (parent child : NodeView) (isRoot : Bool) : ℝ :=
  getCpuct params parent isRoot * getExploreScaling params parent * child.policy
    * Real.sqrt ((parent.visits : ℕ) : ℝ) / (1 + (child.visits : ℝ))

/-- Concrete parameter values for the selection counterexamples: every
value that params.rs declares a range for is inside that range
(`cpuct_var_weight` at its declared minimum 0; `cpuct_var_warmup` has no
declared range in this snapshot and is taken as 0). -/
def ceParams : SearchParams :=
  { root_cpuct := 0.405, cpuct := 0.261, cpuct_visits_scale := 36.779,
    cpuct_var_weight := 0, cpuct_var_scale := 0.275, cpuct_var_warmup := 0,
    expl_tau := 0.675, gini_base := 0.461, gini_ln_multiplier := 1.536,
    gini_min := 2.256, virtual_loss_weight := 2.5 }

/-- A parent with 4 visits, zero variance, fully spread children
(gini impurity 255/255 = 1). -/
def ceParent : NodeView :=
  { visits := 4, q := 1 / 2, var := 0, gini := 1, policy := 0, threads := 0 }

/-- An unvisited child with policy 13107/65535 = 1/5. -/
def ceChild : NodeView :=
  { visits := 0, q := 0, var := 0, gini := 0, policy := 1 / 5, threads := 0 }

/-! ## Policy output stage (src/src/networks/policy.rs)

`PolicyNetwork::get` dot-multiplies the transposed output row for the move
index against the hidden accumulator with portable SIMD: a while loop over
`CHUNK`-wide chunks accumulating into a 32-lane `i32` vector (lanes at or
beyond `CHUNK` stay zero because the temp arrays are zero-padded), a manual
horizontal sum, a scalar remainder loop, and finally
`(res as f32 / (QA * FACTOR) + bias) / QB`. The `i32` accumulation is
embedded over `Int` (the search never drives the products near `i32`
range) and the float stage over `Real`. `CHUNK` is 8, 16, 32 or 64
depending on target features; the conversion theorem holds for every chunk
width from 1 to the 32 lanes the accumulator holds. -/

def QA : ℤ := 128
def QB : ℤ := 128
def FACTOR : ℤ := 32

/-- One SIMD chunk at base offset `i`: lane `l` receives
`w[i + l] * v[i + l]`, lanes at or beyond `CHUNK` receive zero. -/
def laneContrib (w v : ℕ → ℤ) (chunk i l : ℕ) : ℤ :=
  if l < chunk then w (i + l) * v (i + l) else 0

/-- Lane `l` of `sum_vec` after the while loop has processed `k` chunks. -/
def sumVecLane (w v : ℕ → ℤ) (chunk k l : ℕ) : ℤ :=
  ∑ j ∈ Finset.range k, laneContrib w v chunk (j * chunk) l

/-- The manual horizontal sum over the 32 lanes. -/
def horizontalSum (w v : ℕ → ℤ) (chunk k : ℕ) : ℤ :=
  ∑ l ∈ Finset.range 32, sumVecLane w v chunk k l

/-- Rust `PolicyNetwork::get` for one output row: SIMD loop over
`len / CHUNK` full chunks, horizontal sum, scalar remainder loop from
`(len / CHUNK) * CHUNK`, and the final float conversion. -/
def policyGet (w v : ℕ → ℤ) (chunk len : ℕ) (bias : ℤ) : ℝ :=
  let k := len / chunk
  let res := horizontalSum w v chunk k + ∑ j ∈ Finset.Ico (k * chunk) len, w j * v j
  ((res : ℝ) / ((QA * FACTOR : ℤ) : ℝ) + ((bias : ℤ) : ℝ)) / ((QB : ℤ) : ℝ)

end RealSelection

/-! ## Policy move indexing (src/src/networks/policy.rs map_move_to_index
and OFFSETS) -/

/-- Modelled from the spec: `Attacks::ALL_DESTINATIONS` lives in the
external montyformat crate, not under src/. Per the policy-indexing design
(§4.1: ≈ 3 760 output slots indexed by source, destination, promotion kind
and the SEE bit, with `OFFSETS` accumulating the per-square destination
counts so that OFFSETS[64] + 4·22 = 1880), the destination set of a square
is every queen-line and knight destination reachable from it on an empty
board. `tryBit` sets the bit of (rank r, file f) when it is on the
board. -/
def tryBit (r f : ℤ) : ℕ :=
  if 0 ≤ r ∧ r < 8 ∧ 0 ≤ f ∧ f < 8 then 2 ^ (8 * r + f).toNat else 0

def dirList : List (ℤ × ℤ) :=
  [(1, 0), (-1, 0), (0, 1), (0, -1), (1, 1), (1, -1), (-1, 1), (-1, -1)]

def knightList : List (ℤ × ℤ) :=
  [(1, 2), (2, 1), (2, -1), (1, -2), (-1, -2), (-2, -1), (-2, 1), (-1, 2)]

/-- The ray from (r, f) along direction (dr, df), up to 7 steps. -/
def rayBB (r f dr df : ℤ) : ℕ :=
  (List.range 7).foldl
    (fun acc k => acc ||| tryBit (r + ((k : ℤ) + 1) * dr) (f + ((k : ℤ) + 1) * df)) 0

def knightBB (r f : ℤ) : ℕ :=
  knightList.foldl (fun acc d => acc ||| tryBit (r + d.1) (f + d.2)) 0

/-- Modelled from the spec: `ALL_DESTINATIONS[sq]` = queen rays plus
knight jumps from `sq` on an empty board. -/
def allDestinations (sq : ℕ) : ℕ :=
  dirList.foldl
      (fun acc d => acc ||| rayBB ((sq / 8 : ℕ) : ℤ) ((sq % 8 : ℕ) : ℤ) d.1 d.2) 0
    ||| knightBB ((sq / 8 : ℕ) : ℤ) ((sq % 8 : ℕ) : ℤ)

/-- Rust `u64::count_ones`, fuel-structured over the 64 bits. -/
def pcAux : ℕ → ℕ → ℕ
  | 0, _ => 0
  | fuel + 1, n => n % 2 + pcAux fuel (n / 2)

def popCount64 (n : ℕ) : ℕ := pcAux 64 n

/-- The `OFFSETS` const block of policy.rs: `offsets[sq]` accumulates the
destination counts of all earlier squares; `OFFSETS 64` is `OFFSETS[64]`. -/
def OFFSETS : ℕ → ℕ
  | 0 => 0
  | s + 1 => OFFSETS s + popCount64 (allDestinations s)

def PROMOS : ℕ := 4 * 22

/-- Rust `map_move_to_index`: `seePass` is `pos.see(&mov, -108)`, `promoPc` is
`mov.promo_pc()` (piece codes knight = 3 … queen = 6 in the montyformat
encoding), `kingIdx` is `pos.king_index()`. -/
def map_move_to_index (kingIdx stm : ℕ) (seePass : Bool) (src dst : ℕ)
    (isPromo : Bool) (promoPc : ℕ) : ℕ :=
  let hm := if kingIdx % 8 > 3 then 7 else 0
  let goodSee := (OFFSETS 64 + PROMOS) * (if seePass then 1 else 0)
  let idx :=
    if isPromo then
      let ffile := (src ^^^ hm) % 8
      let tfile := (dst ^^^ hm) % 8
      let promoId := 2 * ffile + tfile
      OFFSETS 64 + 22 * (promoPc - 3) + promoId
    else
      let flip := if stm = 1 then 56 else 0
      let fromSq := src ^^^ flip ^^^ hm
      let destSq := dst ^^^ flip ^^^ hm
      let below := allDestinations fromSq &&& ((1 <<< destSq) - 1)
      OFFSETS fromSq + popCount64 below
  goodSee + idx

/-! ## Helper lemmas -/

lemma shiftLeft_lor_eq_add (v a n : ℕ) (h : a < 2 ^ n) :
    (v <<< n) ||| a = v * 2 ^ n + a := by
  rw [Nat.shiftLeft_eq]
  apply Nat.eq_of_testBit_eq
  intro i
  rw [Nat.mul_comm v (2 ^ n), Nat.testBit_lor, Nat.testBit_mul_pow_two,
    Nat.testBit_mul_pow_two_add _ h]
  rcases Nat.lt_or_ge i n with hi | hi
  · simp [hi, Nat.not_le.mpr hi]
  · simp [hi, Nat.not_lt.mpr hi,
      Nat.testBit_lt_two_pow (Nat.lt_of_lt_of_le h (Nat.pow_le_pow_right (by norm_num) hi))]

/-- The quantised Q stored by `pack_data` always fits in 32 bits. -/
lemma quantize32_lt (q : ℚ) : quantize32 q < 2 ^ 32 := by
  have h : (min ⌊q * (Q_SCALE : ℚ)⌋ (2 ^ 32 - 2)).toNat ≤ ((2 : ℤ) ^ 32 - 2).toNat :=
    Int.toNat_le_toNat (min_le_right _ _)
  unfold quantize32
  omega

/-- Rust `unpack_data` inverts `pack_data` up to the 32-bit quantisation of Q. -/
lemma unpackData_packData (v : ℕ) (q : ℚ) :
    unpackData (packData v q) = (v, ((quantize32 q : ℕ) : ℚ) / (Q_SCALE : ℚ)) := by
  have hlt := quantize32_lt q
  unfold unpackData packData
  rw [shiftLeft_lor_eq_add _ _ _ hlt]
  simp only [Prod.mk.injEq]
  constructor
  · rw [Nat.shiftRight_eq_div_pow]
    omega
  · rw [Nat.and_pow_two_sub_one_eq_mod]
    have hmod : (v * 2 ^ 32 + quantize32 q) % 2 ^ 32 = quantize32 q := by omega
    rw [hmod]

/-- Rust `update_entry` and the fresh-insert path of `push` never change the key
they matched or wrote. -/
lemma updatedEntry_key (e : HashEntryInternal) (v : ℚ) :
    (updatedEntry e v).key = e.key := rfl

lemma freshEntry_key (h : ℕ) (v : ℚ) : (freshEntry h v).key = h := rfl

lemma freshEntry_data (h : ℕ) (v : ℚ) : (freshEntry h v).data = packData 1 v := rfl

/-- Reading back a freshly inserted entry decodes visits 1 and the 32-bit
quantised Q. -/
lemma readEntry_fresh (h : ℕ) (v : ℚ) :
    readEntry (freshEntry h v) h =
      some ⟨((quantize32 v : ℕ) : ℚ) / (Q_SCALE : ℚ), 1⟩ := by
  unfold readEntry
  rw [freshEntry_key, if_pos rfl, freshEntry_data, unpackData_packData]

/-- Reading an entry with a non-matching key misses. -/
lemma readEntry_ne (e : HashEntryInternal) (h : ℕ) (hne : e.key ≠ h) :
    readEntry e h = none := by
  unfold readEntry
  rw [if_neg hne]

/-- The two slots of a bucket pair are distinct. -/
lemma xor_one_ne_self (a : ℕ) : a ≠ a ^^^ 1 := by
  intro h
  have h1 := congrArg (HXor.hXor a) h
  rw [Nat.xor_self, ← Nat.xor_assoc, Nat.xor_self, Nat.zero_xor] at h1
  exact absurd h1.symm one_ne_zero

/-- 32-bit quantisation round trip: for Q in [0, 1] the value decoded from
`pack_data` is within `2⁻³¹` of the original (the cap at `u32::MAX - 1`
costs one extra quantum at the top end). -/
lemma quant32_roundtrip (q : ℚ) (h0 : 0 ≤ q) (h1 : q ≤ 1) :
    |((quantize32 q : ℕ) : ℚ) / (Q_SCALE : ℚ) - q| ≤ 1 / 2 ^ 31 := by
  unfold quantize32
  have hS : (Q_SCALE : ℚ) = 2 ^ 32 := by norm_num [Q_SCALE]
  have hfl0 : (0 : ℤ) ≤ ⌊q * (Q_SCALE : ℚ)⌋ :=
    Int.floor_nonneg.mpr (by positivity)
  have hup : (⌊q * (Q_SCALE : ℚ)⌋ : ℚ) ≤ q * (Q_SCALE : ℚ) := Int.floor_le _
  have hlo : q * (Q_SCALE : ℚ) < (⌊q * (Q_SCALE : ℚ)⌋ : ℚ) + 1 := Int.lt_floor_add_one _
  rcases le_or_lt ⌊q * (Q_SCALE : ℚ)⌋ (2 ^ 32 - 2) with hc | hc
  · have hcast : ((⌊q * (Q_SCALE : ℚ)⌋.toNat : ℕ) : ℚ) = ((⌊q * (Q_SCALE : ℚ)⌋ : ℤ) : ℚ) := by
      exact_mod_cast congrArg (fun z : ℤ => (z : ℚ)) (Int.toNat_of_nonneg hfl0)
    rw [min_eq_left hc, hcast, hS]
    rw [hS] at hup hlo
    rw [abs_le]
    have hpos : (0 : ℚ) < 2 ^ 32 := by positivity
    have hub : (⌊q * (2 ^ 32 : ℚ)⌋ : ℚ) / 2 ^ 32 ≤ q := (div_le_iff₀ hpos).mpr hup
    have hlb : q - 1 / 2 ^ 32 ≤ (⌊q * (2 ^ 32 : ℚ)⌋ : ℚ) / 2 ^ 32 := by
      rw [le_div_iff₀ hpos]
      have hexp : (q - 1 / 2 ^ 32) * 2 ^ 32 = q * 2 ^ 32 - 1 := by ring
      rw [hexp]
      linarith
    have h2 : (1 : ℚ) / 2 ^ 32 ≤ 1 / 2 ^ 31 := by norm_num
    have h3 : (0 : ℚ) ≤ 1 / 2 ^ 31 := by norm_num
    constructor
    · linarith
    · linarith
  · have h3 : ((2 : ℤ) ^ 32 - 1 : ℤ) ≤ ⌊q * (Q_SCALE : ℚ)⌋ := by omega
    have hq1 : 1 - 1 / 2 ^ 32 ≤ q := by
      have h2 : (2 : ℚ) ^ 32 - 1 ≤ q * (Q_SCALE : ℚ) :=
        calc (2 : ℚ) ^ 32 - 1 = (((2 : ℤ) ^ 32 - 1 : ℤ) : ℚ) := by norm_num
        _ ≤ (⌊q * (Q_SCALE : ℚ)⌋ : ℚ) := by exact_mod_cast h3
        _ ≤ q * (Q_SCALE : ℚ) := hup
      rw [hS] at h2
      nlinarith
    have hval : ((((2 : ℤ) ^ 32 - 2).toNat : ℕ) : ℚ) = (2 : ℚ) ^ 32 - 2 := by
      have ht : ((2 : ℤ) ^ 32 - 2).toNat = 4294967294 := by decide
      rw [ht]
      norm_num
    rw [min_eq_right (le_of_lt hc), hval, hS, abs_le]
    have e1 : ((2 : ℚ) ^ 32 - 2) / 2 ^ 32 = 1 - 1 / 2 ^ 31 := by norm_num
    rw [e1]
    have h4 : (1 : ℚ) / 2 ^ 32 ≤ 1 / 2 ^ 31 := by norm_num
    have h5 : (0 : ℚ) ≤ 1 / 2 ^ 31 := by norm_num
    constructor
    · linarith
    · linarith

/-- Within [0, 1], the `QUANT`-scale floors of `u` and `1 - u` sum to
`QUANT` or `QUANT - 1`. -/
lemma quantQ_add_compl (u : ℚ) (h0 : 0 ≤ u) (h1 : u ≤ 1) :
    QUANT - 1 ≤ quantQ u + quantQ (1 - u) ∧ quantQ u + quantQ (1 - u) ≤ QUANT := by
  have hQ : ((QUANT : ℚ)) = 65536 := by norm_num [QUANT]
  have ha0 : (0 : ℤ) ≤ ⌊u * (QUANT : ℚ)⌋ := Int.floor_nonneg.mpr (by positivity)
  have hb0 : (0 : ℤ) ≤ ⌊(1 - u) * (QUANT : ℚ)⌋ :=
    Int.floor_nonneg.mpr (by nlinarith [hQ])
  have hau : (⌊u * (QUANT : ℚ)⌋ : ℚ) ≤ u * (QUANT : ℚ) := Int.floor_le _
  have hbu : (⌊(1 - u) * (QUANT : ℚ)⌋ : ℚ) ≤ (1 - u) * (QUANT : ℚ) := Int.floor_le _
  have hal : u * (QUANT : ℚ) < (⌊u * (QUANT : ℚ)⌋ : ℚ) + 1 := Int.lt_floor_add_one _
  have hbl : (1 - u) * (QUANT : ℚ) < (⌊(1 - u) * (QUANT : ℚ)⌋ : ℚ) + 1 :=
    Int.lt_floor_add_one _
  have hsum_le : ⌊u * (QUANT : ℚ)⌋ + ⌊(1 - u) * (QUANT : ℚ)⌋ ≤ (QUANT : ℤ) := by
    have : (⌊u * (QUANT : ℚ)⌋ : ℚ) + (⌊(1 - u) * (QUANT : ℚ)⌋ : ℚ) ≤ (QUANT : ℚ) := by
      nlinarith
    exact_mod_cast this
  have hsum_ge : (QUANT : ℤ) - 1 ≤ ⌊u * (QUANT : ℚ)⌋ + ⌊(1 - u) * (QUANT : ℚ)⌋ := by
    have h2 : (QUANT : ℚ) - 2 < (⌊u * (QUANT : ℚ)⌋ : ℚ) + (⌊(1 - u) * (QUANT : ℚ)⌋ : ℚ) := by
      nlinarith
    have h3 : (QUANT : ℤ) - 2 < ⌊u * (QUANT : ℚ)⌋ + ⌊(1 - u) * (QUANT : ℚ)⌋ := by
      exact_mod_cast h2
    omega
  unfold quantQ
  constructor <;> omega

/-- Generic floor-quantisation round trip at any positive scale. -/
lemma floor_div_roundtrip (q C : ℚ) (hC : 0 < C) :
    |((⌊q * C⌋ : ℤ) : ℚ) / C - q| ≤ 1 / C := by
  have hup : ((⌊q * C⌋ : ℤ) : ℚ) ≤ q * C := Int.floor_le _
  have hlo : q * C < ((⌊q * C⌋ : ℤ) : ℚ) + 1 := Int.lt_floor_add_one _
  have hub : ((⌊q * C⌋ : ℤ) : ℚ) / C ≤ q := (div_le_iff₀ hC).mpr hup
  have hlb : q - 1 / C ≤ ((⌊q * C⌋ : ℤ) : ℚ) / C := by
    rw [le_div_iff₀ hC, sub_mul, div_mul_cancel₀ _ (ne_of_gt hC)]
    linarith
  have h1C : (0 : ℚ) < 1 / C := by positivity
  rw [abs_le]
  constructor
  · linarith
  · linarith

lemma rustClampI_mem (v lo hi : ℤ) (h : lo ≤ hi) :
    lo ≤ rustClampI v lo hi ∧ rustClampI v lo hi ≤ hi := by
  unfold rustClampI
  split_ifs <;> omega

lemma rustClampQ_mem (v lo hi : ℚ) (h : lo ≤ hi) :
    lo ≤ rustClampQ v lo hi ∧ rustClampQ v lo hi ≤ hi := by
  unfold rustClampQ
  split_ifs <;> constructor <;> linarith

lemma PVal.set_inRange (p : PVal) (v : ℤ) (h : p.wfRange) : (p.set v).inRange := by
  cases p with
  | int p => exact rustClampI_mem v p.min p.max h
  | flt p => exact rustClampQ_mem _ p.min p.max h

lemma ceCpuct_pos : 0 < getCpuct ceParams ceParent false := by
  unfold getCpuct
  simp only [ceParams, ceParent]
  norm_num
  have hlog : 0 ≤ Real.log ((4 + 36.779 * 128) / (36.779 * 128)) := by
    apply Real.log_nonneg
    rw [le_div_iff (by norm_num : (0 : ℝ) < 36.779 * 128)]
    norm_num
  nlinarith

lemma ceExplScale_pos : 0 < getExploreScaling ceParams ceParent := by
  unfold getExploreScaling baseExploreScaling
  simp only [ceParams, ceParent]
  apply mul_pos (Real.exp_pos _)
  apply lt_min
  · have hlog : Real.log (1 + 0.001) ≤ 0.001 := by
      have h := Real.log_le_sub_one_of_pos (by norm_num : (0 : ℝ) < 1 + 0.001)
      linarith
    have hlog0 : 0 ≤ Real.log (1 + 0.001) :=
      Real.log_nonneg (by norm_num)
    nlinarith
  · norm_num

lemma lane_sum_eq (w v : ℕ → ℤ) (chunk i : ℕ) (h32 : chunk ≤ 32) :
    ∑ l ∈ Finset.range 32, laneContrib w v chunk i l
      = ∑ l ∈ Finset.range chunk, (w (i + l) * v (i + l)) := by
  rw [← Finset.sum_subset (Finset.range_subset.mpr h32)
    (fun x _ hx => by simp [laneContrib, Finset.mem_range.not.mp hx])]
  exact Finset.sum_congr rfl fun l hl => by
    simp [laneContrib, Finset.mem_range.mp hl]

lemma chunked_sum_eq (f : ℕ → ℤ) (chunk : ℕ) :
    ∀ k : ℕ, ∑ j ∈ Finset.range k, ∑ l ∈ Finset.range chunk, f (j * chunk + l)
      = ∑ t ∈ Finset.range (k * chunk), f t := by
  intro k
  induction k with
  | zero => simp
  | succ k ih =>
    rw [Finset.sum_range_succ, ih, Nat.succ_mul, Finset.sum_range_add]

lemma pcAux_eq_sum (fuel : ℕ) : ∀ n : ℕ,
    pcAux fuel n = ∑ i ∈ Finset.range fuel, n / 2 ^ i % 2 := by
  induction fuel with
  | zero => intro n; simp [pcAux]
  | succ fuel ih =>
    intro n
    rw [pcAux, ih (n / 2), Finset.sum_range_succ']
    simp only [Nat.div_div_eq_div_mul, pow_zero, Nat.div_one]
    rw [Nat.add_comm]
    congr 1
    exact Finset.sum_congr rfl fun i _ => by rw [pow_succ']

lemma bit_div_mod (x i : ℕ) : x / 2 ^ i % 2 = (x.testBit i).toNat := by
  rw [Nat.testBit_to_div_mod]
  rcases Nat.mod_two_eq_zero_or_one (x / 2 ^ i) with h | h <;> simp [h]

/-- Masking can only clear bits, so the popcount of `a &&& m` is at most
that of `a`. -/
lemma popCount64_land_le (a m : ℕ) : popCount64 (a &&& m) ≤ popCount64 a := by
  unfold popCount64
  rw [pcAux_eq_sum, pcAux_eq_sum]
  apply Finset.sum_le_sum
  intro i _
  rw [bit_div_mod, bit_div_mod, Nat.testBit_land]
  cases a.testBit i <;> cases m.testBit i <;> simp

lemma OFFSETS_le_of_le : ∀ {a b : ℕ}, a ≤ b → OFFSETS a ≤ OFFSETS b := by
  intro a b h
  induction b with
  | zero => simp [Nat.le_zero.mp h]
  | succ b ih =>
    rcases Nat.lt_or_ge a (b + 1) with h2 | h2
    · calc OFFSETS a ≤ OFFSETS b := ih (Nat.lt_succ_iff.mp h2)
      _ ≤ OFFSETS (b + 1) := Nat.le_add_right _ _
    · rw [le_antisymm h h2]

set_option maxRecDepth 4000 in
/-- The total destination count over all 64 squares. -/
lemma OFFSETS_64_eq : OFFSETS 64 = 1792 := by decide

/-! ## Claim theorems -/

/-- C6: for every q in [0, 1], storing q into a freshly cleared node via one
`Node::update(q)` and reading it back via `Node::q` yields a value within
`1/65536` of q; the fixed-point scale `QUANT` is 65 536. -/
theorem node_update_q_roundtrip (q : ℚ) (h0 : 0 ≤ q) (h1 : q ≤ 1) :
    QUANT = 65536 ∧ |(NodeQ.cleared.update q).1.q - q| ≤ 1 / 65536 := by
  refine ⟨rfl, ?_⟩
  have hfl0 : (0 : ℤ) ≤ ⌊q * (QUANT : ℚ)⌋ := Int.floor_nonneg.mpr (by positivity)
  have hread : (NodeQ.cleared.update q).1.q = ((quantQ q : ℕ) : ℚ) / (QUANT : ℚ) := by
    simp [NodeQ.cleared, NodeQ.update, NodeQ.q]
  rw [hread]
  have hcast : ((quantQ q : ℕ) : ℚ) = ((⌊q * (QUANT : ℚ)⌋ : ℤ) : ℚ) := by
    unfold quantQ
    exact_mod_cast congrArg (fun z : ℤ => (z : ℚ)) (Int.toNat_of_nonneg hfl0)
  have hQ : ((QUANT : ℕ) : ℚ) = 65536 := by norm_num [QUANT]
  rw [hcast, hQ]
  exact floor_div_roundtrip q 65536 (by norm_num)

/-- C6 witness at q = 1/3. -/
theorem node_update_q_roundtrip_witness :
    (0 : ℚ) ≤ 1 / 3 ∧ (1 : ℚ) / 3 ≤ 1 ∧
      (QUANT = 65536 ∧ |(NodeQ.cleared.update (1 / 3)).1.q - 1 / 3| ≤ 1 / 65536) :=
  ⟨by norm_num, by norm_num,
    node_update_q_roundtrip (1 / 3) (by norm_num) (by norm_num)⟩

/-- C3: for raw descent value u in [0, 1], one backprop step at the child
(which stores `1 - u` and hands `1 - u` upward) followed by the backprop
step at the parent (which stores the flipped `1 - (1 - u)`) increments the
two `sum_q` fields so that the increments, each divided by `QUANT`, sum to
within one quantisation unit (`1/QUANT`) of 1. -/
theorem backprop_flip_sum_q (child parent : NodeQ) (u : ℚ)
    (h0 : 0 ≤ u) (h1 : u ≤ 1) :
    |(((performOneBackprop child u).1.sum_q - child.sum_q : ℕ) : ℚ) / (QUANT : ℚ)
        + (((performOneBackprop parent (performOneBackprop child u).2).1.sum_q
            - parent.sum_q : ℕ) : ℚ) / (QUANT : ℚ) - 1|
      ≤ 1 / (QUANT : ℚ) := by
  have hci : (performOneBackprop child u).1.sum_q - child.sum_q = quantQ (1 - u) := by
    simp [performOneBackprop, NodeQ.update]
  have hv : (performOneBackprop child u).2 = 1 - u := rfl
  have hpi : (performOneBackprop parent (performOneBackprop child u).2).1.sum_q
      - parent.sum_q = quantQ u := by
    rw [hv]
    simp [performOneBackprop, NodeQ.update, sub_sub_cancel]
  rw [hci, hpi]
  have hsum := quantQ_add_compl (1 - u) (by linarith) (by linarith)
  rw [sub_sub_cancel] at hsum
  obtain ⟨hge, hle⟩ := hsum
  have hQpos : (0 : ℚ) < (QUANT : ℚ) := by norm_num [QUANT]
  have hcast : ((quantQ (1 - u) : ℕ) : ℚ) / (QUANT : ℚ) + ((quantQ u : ℕ) : ℚ) / (QUANT : ℚ)
      = ((quantQ (1 - u) + quantQ u : ℕ) : ℚ) / (QUANT : ℚ) := by
    push_cast
    ring
  rw [hcast, abs_le]
  have hge' : ((QUANT : ℕ) : ℚ) - 1 ≤ ((quantQ (1 - u) + quantQ u : ℕ) : ℚ) := by
    have hQ1 : (1 : ℕ) ≤ QUANT := by norm_num [QUANT]
    have h := (Nat.cast_le (α := ℚ)).mpr hge
    rwa [Nat.cast_sub hQ1, Nat.cast_one] at h
  have hle' : ((quantQ (1 - u) + quantQ u : ℕ) : ℚ) ≤ ((QUANT : ℕ) : ℚ) :=
    (Nat.cast_le (α := ℚ)).mpr hle
  have hlb : 1 - 1 / (QUANT : ℚ)
      ≤ ((quantQ (1 - u) + quantQ u : ℕ) : ℚ) / (QUANT : ℚ) := by
    rw [le_div_iff₀ hQpos, sub_mul, one_mul, div_mul_cancel₀ _ (ne_of_gt hQpos)]
    linarith
  have hub : ((quantQ (1 - u) + quantQ u : ℕ) : ℚ) / (QUANT : ℚ) ≤ 1 :=
    (div_le_one hQpos).mpr hle'
  have h0' : (0 : ℚ) ≤ 1 / (QUANT : ℚ) := by positivity
  constructor
  · linarith
  · linarith

/-- C3 witness at u = 1/3 with nonzero starting statistics. -/
theorem backprop_flip_sum_q_witness :
    (0 : ℚ) ≤ 1 / 3 ∧ (1 : ℚ) / 3 ≤ 1 ∧
      |(((performOneBackprop ⟨2, 5, 7⟩ (1 / 3)).1.sum_q - (5 : ℕ) : ℕ) : ℚ) / (QUANT : ℚ)
          + (((performOneBackprop ⟨4, 11, 13⟩
              (performOneBackprop ⟨2, 5, 7⟩ (1 / 3)).2).1.sum_q - (11 : ℕ) : ℕ) : ℚ)
            / (QUANT : ℚ) - 1| ≤ 1 / (QUANT : ℚ) :=
  ⟨by norm_num, by norm_num,
    backprop_flip_sum_q ⟨2, 5, 7⟩ ⟨4, 11, 13⟩ (1 / 3) (by norm_num) (by norm_num)⟩

/-- C9: on a freshly created (or cleared) table, whose backing words are all
zero, `get(0)` returns `Some` entry with q = 0 and visits = 0: the key field
of an empty slot is zero and `read_entry` compares it against the probed
hash, so probing hash 0 yields a false hit instead of `None`. -/
theorem tt_zero_hash_false_hit (size threads threads2 : ℕ) (t : HashTable) :
    (HashTable.new size threads).get 0 = some ⟨0, 0⟩ ∧
      (t.clear threads2).get 0 = some ⟨0, 0⟩ := by
  constructor <;>
    simp [HashTable.get, HashTable.new, HashTable.clear, readEntry, unpackData, Q_SCALE]

/-- C4 counterexample: with table capacity 4 (mask 3), pushing hash 4 and
then hash 8 — both congruent to 0 mod 4 — leaves BOTH entries retrievable:
the second push landed in the XOR-paired secondary slot (index 1, not
`8 mod 4 = 0`), and the stored key is the full value 8. Under the claimed
layout (one 32-bit slot per bucket, no chaining, push stores at
`hash mod N`) the second push would have displaced the first. -/
theorem tt_single_slot_claim_counterexample :
    (((HashTable.new 4 1).push 4 (1 / 4)).push 8 (3 / 4)).get 4 = some ⟨1 / 4, 1⟩ ∧
      (((HashTable.new 4 1).push 4 (1 / 4)).push 8 (3 / 4)).get 8 = some ⟨3 / 4, 1⟩ ∧
      ((((HashTable.new 4 1).push 4 (1 / 4)).push 8 (3 / 4)).table 1).key = 8 ∧
      8 % 4 ≠ 1 := by
  have hand4 : (4 : ℕ) &&& 3 = 0 := by decide
  have hand8 : (8 : ℕ) &&& 3 = 0 := by decide
  have hxor0 : (0 : ℕ) ^^^ 1 = 1 := by decide
  have h1 : (HashTable.new 4 1).push 4 (1 / 4)
      = (HashTable.new 4 1).setEntry 0 (freshEntry 4 (1 / 4)) := by
    simp [HashTable.push, HashTable.new, nextPowerOfTwo, nextPow2Aux, hand4]
  have h2 : ((HashTable.new 4 1).push 4 (1 / 4)).push 8 (3 / 4)
      = ((HashTable.new 4 1).setEntry 0 (freshEntry 4 (1 / 4))).setEntry 1
          (freshEntry 8 (3 / 4)) := by
    rw [h1]
    simp [HashTable.push, HashTable.setEntry, HashTable.new, nextPowerOfTwo, nextPow2Aux,
      freshEntry_key, hand8, hxor0]
  have hval : ∀ a b : ℕ, a = 2 * b → b < 2 ^ 31 →
      ((quantize32 ((a : ℚ) / 2 ^ 32) : ℕ) : ℚ) / (Q_SCALE : ℚ) = (a : ℚ) / 2 ^ 32 := by
    intro a b hab hb
    have ha : (a : ℚ) / 2 ^ 32 * (Q_SCALE : ℚ) = (a : ℕ) := by
      rw [show (Q_SCALE : ℚ) = (2 : ℚ) ^ 32 by norm_num [Q_SCALE]]
      field_simp
    have hfl : ⌊(a : ℚ) / 2 ^ 32 * (Q_SCALE : ℚ)⌋ = (a : ℤ) := by
      rw [ha]
      exact_mod_cast Int.floor_natCast a
    have hmin : min ⌊(a : ℚ) / 2 ^ 32 * (Q_SCALE : ℚ)⌋ (2 ^ 32 - 2) = (a : ℤ) := by
      rw [hfl]
      apply min_eq_left
      omega
    unfold quantize32
    rw [hmin]
    simp only [Int.toNat_natCast]
    norm_num [Q_SCALE]
  refine ⟨?_, ?_, ?_, by decide⟩
  · rw [h2]
    have hq : ((quantize32 (1 / 4) : ℕ) : ℚ) / (Q_SCALE : ℚ) = 1 / 4 := by
      have := hval (2 ^ 30) (2 ^ 29) (by norm_num) (by norm_num)
      rw [show ((2 ^ 30 : ℕ) : ℚ) / 2 ^ 32 = 1 / 4 by norm_num] at this
      exact this
    have hr1 : readEntry (freshEntry 4 (1 / 4)) 4 = some ⟨1 / 4, 1⟩ := by
      rw [readEntry_fresh, hq]
    simp [HashTable.get, HashTable.setEntry, HashTable.new, nextPowerOfTwo, nextPow2Aux,
      hand4, hr1, -one_div]
  · rw [h2]
    have hq : ((quantize32 (3 / 4) : ℕ) : ℚ) / (Q_SCALE : ℚ) = 3 / 4 := by
      have := hval (3 * 2 ^ 30) (3 * 2 ^ 29) (by norm_num) (by norm_num)
      rw [show ((3 * 2 ^ 30 : ℕ) : ℚ) / 2 ^ 32 = 3 / 4 by norm_num] at this
      exact this
    have hr1 : readEntry (freshEntry 4 (1 / 4)) 8 = none :=
      readEntry_ne _ _ (by decide)
    have hr2 : readEntry (freshEntry 8 (3 / 4)) 8 = some ⟨3 / 4, 1⟩ := by
      rw [readEntry_fresh, hq]
    simp [HashTable.get, HashTable.setEntry, HashTable.new, nextPowerOfTwo, nextPow2Aux,
      hand8, hxor0, hr1, hr2, -one_div]
  · rw [h2]
    simp [HashTable.setEntry, freshEntry_key]

/-- C4 amended: `push(hash, q)` writes only within the two-slot bucket pair
`{hash & mask, (hash & mask) ^ 1}`, leaves the mask unchanged, and leaves an
entry whose (full 64-bit) key equals `hash` in one of the two slots. -/
theorem tt_push_bucket_pair (t : HashTable) (hash : ℕ) (val : ℚ) (j : ℕ)
    (hj0 : j ≠ hash &&& t.mask) (hj1 : j ≠ (hash &&& t.mask) ^^^ 1) :
    ((t.push hash val).table j = t.table j ∧ (t.push hash val).mask = t.mask) ∧
      (((t.push hash val).table (hash &&& t.mask)).key = hash ∨
        ((t.push hash val).table ((hash &&& t.mask) ^^^ 1)).key = hash) := by
  simp only [HashTable.push, HashTable.setEntry]
  split_ifs with h1 h2 h3 h4 h5
  · exact ⟨⟨by dsimp only; rw [if_neg hj0], rfl⟩,
      Or.inl (by dsimp only; rw [if_pos rfl, updatedEntry_key]; exact h1)⟩
  · exact ⟨⟨by dsimp only; rw [if_neg hj1], rfl⟩,
      Or.inr (by dsimp only; rw [if_pos rfl, updatedEntry_key]; exact h2)⟩
  · exact ⟨⟨by dsimp only; rw [if_neg hj0], rfl⟩,
      Or.inl (by dsimp only; rw [if_pos rfl, freshEntry_key])⟩
  · exact ⟨⟨by dsimp only; rw [if_neg hj1], rfl⟩,
      Or.inr (by dsimp only; rw [if_pos rfl, freshEntry_key])⟩
  · exact ⟨⟨by dsimp only; rw [if_neg hj1, if_neg hj0], rfl⟩,
      Or.inr (by dsimp only; rw [if_pos rfl, freshEntry_key])⟩
  · exact ⟨⟨by dsimp only; rw [if_neg hj1], rfl⟩,
      Or.inr (by dsimp only; rw [if_pos rfl, freshEntry_key])⟩

/-- C4 amended witness: a concrete application at hash 5 on a fresh
capacity-4 table, slot index 7 untouched. -/
theorem tt_push_bucket_pair_witness :
    ((((HashTable.new 4 1).push 5 (1 / 3)).table 7 = (HashTable.new 4 1).table 7 ∧
        (((HashTable.new 4 1).push 5 (1 / 3))).mask = (HashTable.new 4 1).mask) ∧
      ((((HashTable.new 4 1).push 5 (1 / 3)).table (5 &&& (HashTable.new 4 1).mask)).key = 5 ∨
        (((HashTable.new 4 1).push 5 (1 / 3)).table
            ((5 &&& (HashTable.new 4 1).mask) ^^^ 1)).key = 5)) :=
  tt_push_bucket_pair (HashTable.new 4 1) 5 (1 / 3) 7 (by decide) (by decide)

/-- C5 counterexample: push(4, 0) then push(4, 1) followed by get(4) returns
q = 1/2 — the second push on a matching key performs a moving-average update
(`q + (val - q) / visits`), so the value read back is NOT within quantisation
error of the last pushed Q even though no colliding entry for a different
hash was involved. -/
theorem tt_push_get_quant_claim_counterexample :
    (((HashTable.new 4 1).push 4 0).push 4 1).get 4 = some ⟨1 / 2, 2⟩ ∧
      (1 : ℚ) / 2 ^ 16 < 1 - 1 / 2 := by
  have hq0 : quantize32 0 = 0 := by
    unfold quantize32
    norm_num [Q_SCALE]
  have hand4 : (4 : ℕ) &&& 3 = 0 := by decide
  have h1 : (HashTable.new 4 1).push 4 0
      = (HashTable.new 4 1).setEntry 0 (freshEntry 4 0) := by
    simp [HashTable.push, HashTable.new, nextPowerOfTwo, nextPow2Aux, hand4]
  have hupd : updatedEntry (freshEntry 4 0) 1 = ⟨4, packData 2 (1 / 2)⟩ := by
    unfold updatedEntry
    rw [freshEntry_key, freshEntry_data, unpackData_packData, hq0]
    norm_num
  have h2 : ((HashTable.new 4 1).push 4 0).push 4 1
      = ((HashTable.new 4 1).setEntry 0 (freshEntry 4 0)).setEntry 0 ⟨4, packData 2 (1 / 2)⟩ := by
    rw [h1]
    simp [HashTable.push, HashTable.setEntry, HashTable.new, nextPowerOfTwo, nextPow2Aux,
      freshEntry_key, hupd, hand4, -one_div]
  have hqhalf : ((quantize32 (1 / 2) : ℕ) : ℚ) / (Q_SCALE : ℚ) = 1 / 2 := by
    have hfl : ⌊(1 : ℚ) / 2 * (Q_SCALE : ℚ)⌋ = 2 ^ 31 := by norm_num [Q_SCALE]
    unfold quantize32
    rw [hfl, min_eq_left (by norm_num), show ((2 : ℤ) ^ 31).toNat = 2 ^ 31 from by decide]
    norm_num [Q_SCALE]
  refine ⟨?_, by norm_num⟩
  rw [h2]
  have hread : readEntry (⟨4, packData 2 (1 / 2)⟩ : HashEntryInternal) 4
      = some ⟨1 / 2, 2⟩ := by
    unfold readEntry
    rw [if_pos rfl]
    have hu : unpackData ((⟨4, packData 2 (1 / 2)⟩ : HashEntryInternal).data)
        = (2, ((quantize32 (1 / 2) : ℕ) : ℚ) / (Q_SCALE : ℚ)) := unpackData_packData 2 (1 / 2)
    rw [hu, hqhalf]
  simp [HashTable.get, HashTable.setEntry, HashTable.new, nextPowerOfTwo, nextPow2Aux, hread,
    hand4, -one_div]

/-- C5 amended: when neither slot of the bucket pair already holds key
`hash`, `push(hash, q)` inserts a fresh entry with visits = 1 and a
following `get(hash)` returns a q within `2⁻³¹` of the pushed q (Q is
quantised to 32 bits at scale `2³²`, capped at `u32::MAX - 1`); when an
entry for `hash` with v visits exists, the read-back value is instead the
moving average `old_q + (q - old_q) / (v + 1)`. -/
theorem tt_push_get_fresh_roundtrip (t : HashTable) (hash : ℕ) (val : ℚ)
    (hk0 : (t.table (hash &&& t.mask)).key ≠ hash)
    (hk1 : (t.table ((hash &&& t.mask) ^^^ 1)).key ≠ hash)
    (h0 : 0 ≤ val) (h1 : val ≤ 1) :
    ∃ e : HashEntry, (t.push hash val).get hash = some e ∧ e.visits = 1 ∧
      |e.q - val| ≤ 1 / 2 ^ 31 := by
  have hquant := quant32_roundtrip val h0 h1
  have hxne : hash &&& t.mask ≠ (hash &&& t.mask) ^^^ 1 :=
    xor_one_ne_self (hash &&& t.mask)
  refine ⟨⟨((quantize32 val : ℕ) : ℚ) / (Q_SCALE : ℚ), 1⟩, ?_, rfl, hquant⟩
  simp only [HashTable.push]
  rw [if_neg hk0, if_neg hk1]
  by_cases hz0 : (t.table (hash &&& t.mask)).key = 0
  · rw [if_pos hz0]
    simp only [HashTable.get, HashTable.setEntry]
    simp [readEntry_fresh]
  · rw [if_neg hz0]
    by_cases hz1 : (t.table ((hash &&& t.mask) ^^^ 1)).key = 0
    · rw [if_pos hz1]
      simp only [HashTable.get, HashTable.setEntry]
      simp [readEntry_fresh, readEntry_ne _ _ hk0, if_neg hxne]
    · rw [if_neg hz1]
      split_ifs with hv
      · simp only [HashTable.get, HashTable.setEntry]
        simp [readEntry_fresh, readEntry_ne _ _ hk1, if_neg hxne]
      · simp only [HashTable.get, HashTable.setEntry]
        simp [readEntry_fresh, readEntry_ne _ _ hk0, if_neg hxne]

/-- C5 amended witness: fresh insert of q = 1/3 at hash 4 on an empty
capacity-4 table. -/
theorem tt_push_get_fresh_roundtrip_witness :
    ∃ e : HashEntry, ((HashTable.new 4 1).push 4 (1 / 3)).get 4 = some e ∧
      e.visits = 1 ∧ |e.q - 1 / 3| ≤ 1 / 2 ^ 31 :=
  tt_push_get_fresh_roundtrip (HashTable.new 4 1) 4 (1 / 3)
    (by decide) (by decide) (by norm_num) (by norm_num)

/-- C8 counterexample: `set("knight_value", 500)` stores the raw clamped
value 500 (an `i32` parameter is NOT scaled down by 1000); the claimed
behaviour would have stored clamp(500/1000) = clamp(0) = 250. -/
theorem params_int_set_unscaled_counterexample :
    (MctsParams.set MctsParams.default "knight_value" 500).lookup "knight_value"
        = some (PVal.int ⟨500, 250, 750⟩) ∧
      rustClampI (500 / 1000) 250 750 = 250 ∧ (500 : ℤ) ≠ 250 := by
  refine ⟨?_, by decide, by decide⟩
  decide

/-- C8 amended: float-typed parameters store `clamp(v / 1000, min, max)`,
integer-typed parameters store `clamp(v, min, max)` with no scaling, and —
whenever every declared range is nonempty and every stored value is in
range — any `set` call leaves every stored value inside its declared
range. -/
theorem params_set_clamped (ps : List (String × PVal)) (name : String) (v : ℤ)
    (hwf : ∀ e ∈ ps, PVal.wfRange e.2) (hin : ∀ e ∈ ps, PVal.inRange e.2) :
    (∀ e ∈ MctsParams.set ps name v, PVal.inRange e.2) ∧
      (∀ p : ParamI, (PVal.int p).set v = PVal.int ⟨rustClampI v p.min p.max, p.min, p.max⟩) ∧
      (∀ p : ParamF,
        (PVal.flt p).set v = PVal.flt ⟨rustClampQ ((v : ℚ) / 1000) p.min p.max, p.min, p.max⟩) := by
  refine ⟨?_, fun p => rfl, fun p => rfl⟩
  intro e he
  simp only [MctsParams.set, List.mem_map] at he
  obtain ⟨a, ha, hae⟩ := he
  by_cases hn : a.1 = name
  · rw [if_pos hn] at hae
    rw [← hae]
    exact PVal.set_inRange a.2 v (hwf a ha)
  · rw [if_neg hn] at hae
    rw [← hae]
    exact hin a ha

/-- C8 amended witness: the default table is well-formed and in range, and
stays in range after `set("knight_value", 300000)` (which clamps to 750). -/
theorem params_set_clamped_witness :
    (∀ e ∈ MctsParams.default, PVal.wfRange e.2) ∧
      (∀ e ∈ MctsParams.set MctsParams.default "knight_value" 300000,
        PVal.inRange e.2) := by
  have hwf : ∀ e ∈ MctsParams.default, PVal.wfRange e.2 := by
    intro e he
    fin_cases he <;> norm_num [PVal.wfRange]
  have hin : ∀ e ∈ MctsParams.default, PVal.inRange e.2 := by
    intro e he
    fin_cases he <;> norm_num [PVal.inRange]
  exact ⟨hwf, (params_set_clamped MctsParams.default "knight_value" 300000 hwf hin).1⟩

/-- C1 counterexample: at a parent with 4 visits and an unvisited child
with positive policy, the claimed exploration term (with its extra
`√N_parent` factor) is twice the value the code computes, so the two
differ: pick_action multiplies `cpuct * explore_scale * policy / (1 +
N_child)` with NO separate `√N_parent` factor. -/
theorem puct_u_term_sqrt_counterexample :
    claimedUTerm ceParams ceParent ceChild false ≠ uTerm ceParams ceParent ceChild false := by
  have hpol : (0 : ℝ) < ceChild.policy := by norm_num [ceChild]
  have hvis : (1 : ℝ) + ((ceChild.visits : ℕ) : ℝ) = 1 := by norm_num [ceChild]
  have hpos : 0 < uTerm ceParams ceParent ceChild false := by
    unfold uTerm
    rw [hvis, div_one]
    exact mul_pos (mul_pos ceCpuct_pos ceExplScale_pos) hpol
  have hsqrt : Real.sqrt ((ceParent.visits : ℕ) : ℝ) = 2 := by
    have h4 : ((ceParent.visits : ℕ) : ℝ) = 4 := by norm_num [ceParent]
    rw [h4, show (4 : ℝ) = 2 ^ 2 by norm_num, Real.sqrt_sq (by norm_num : (0 : ℝ) ≤ 2)]
  have hrel : claimedUTerm ceParams ceParent ceChild false
      = uTerm ceParams ceParent ceChild false * 2 := by
    unfold claimedUTerm uTerm
    rw [hsqrt]
    ring
  rw [hrel]
  intro h
  nlinarith

/-- C1 amended: the exploration term added to the adjusted Q of the child is
`cpuct · explore_scale · policy / (1 + N_child)` — there is no separate
`√N_parent` factor; the dependence on parent visits enters only through
`explore_scale = exp(expl_tau · ln(max(N_parent, 1))) · shape(gini)` (and
through the visit scaling inside cpuct). -/
theorem puct_u_term_form (params : SearchParams) (parent child : NodeView) (isRoot : Bool) :
    pickScore params parent child isRoot
        = vlAdjustedQ params parent child
          + getCpuct params parent isRoot * getExploreScaling params parent * child.policy
            / (1 + (child.visits : ℝ)) ∧
      getExploreScaling params parent
        = Real.exp (params.expl_tau * Real.log ((max parent.visits 1 : ℕ) : ℝ)) *
            min (params.gini_base - params.gini_ln_multiplier * Real.log (parent.gini + 0.001))
              params.gini_min :=
  ⟨rfl, rfl⟩

/-- C2: the score of a child with T = 0 uses its raw action value (FPU for
an unvisited child, else its Q); a child descended through by T ≥ 1
workers instead uses `q · V / (V + 1 + w · (T − 1))`, with w the
virtual-loss weight. -/
theorem pick_action_virtual_loss (params : SearchParams) (parent child : NodeView)
    (isRoot : Bool) :
    (child.threads = 0 →
      pickScore params parent child isRoot
        = getActionValue child (getFpu parent)
          + getCpuct params parent isRoot * getExploreScaling params parent * child.policy
            / (1 + (child.visits : ℝ))) ∧
    (1 ≤ child.threads →
      pickScore params parent child isRoot
        = getActionValue child (getFpu parent) * (child.visits : ℝ)
            / ((child.visits : ℝ) + 1
                + params.virtual_loss_weight * ((child.threads : ℝ) - 1))
          + getCpuct params parent isRoot * getExploreScaling params parent * child.policy
            / (1 + (child.visits : ℝ))) := by
  constructor
  · intro h
    unfold pickScore vlAdjustedQ
    rw [if_neg (by omega)]
  · intro h
    unfold pickScore vlAdjustedQ
    rw [if_pos (by omega)]

/-- C2 witness: a child with 5 visits and 2 in-flight workers. -/
theorem pick_action_virtual_loss_witness :
    pickScore ceParams ceParent ⟨5, 3 / 10, 0, 0, 1 / 5, 2⟩ false
        = getActionValue ⟨5, 3 / 10, 0, 0, 1 / 5, 2⟩ (getFpu ceParent)
            * (((5 : ℕ) : ℝ))
            / (((5 : ℕ) : ℝ) + 1 + ceParams.virtual_loss_weight * (((2 : ℕ) : ℝ) - 1))
          + getCpuct ceParams ceParent false * getExploreScaling ceParams ceParent
            * (1 / 5) / (1 + ((5 : ℕ) : ℝ)) :=
  (pick_action_virtual_loss ceParams ceParent ⟨5, 3 / 10, 0, 0, 1 / 5, 2⟩ false).2
    (by norm_num)

/-- C7: for any weight row, hidden accumulator, bias and chunk width
between 1 and 32, the score `PolicyNetwork::get` returns equals the flat
integer dot product converted as
`(integer_sum / (QA * FACTOR) + bias) / QB` with QA = 128, FACTOR = 32,
QB = 128: the SIMD lane accumulation, horizontal sum and remainder loop
together compute exactly the full dot product. -/
theorem policy_get_conversion (w v : ℕ → ℤ) (chunk len : ℕ) (bias : ℤ)
    (h1 : 0 < chunk) (h32 : chunk ≤ 32) :
    policyGet w v chunk len bias
      = (((∑ j ∈ Finset.range len, w j * v j : ℤ) : ℝ) / ((QA * FACTOR : ℤ) : ℝ)
          + ((bias : ℤ) : ℝ)) / ((QB : ℤ) : ℝ) := by
  simp only [policyGet]
  have hres : horizontalSum w v chunk (len / chunk)
        + ∑ j ∈ Finset.Ico (len / chunk * chunk) len, w j * v j
      = ∑ j ∈ Finset.range len, w j * v j := by
    have hswap : horizontalSum w v chunk (len / chunk)
        = ∑ j ∈ Finset.range (len / chunk), ∑ l ∈ Finset.range chunk,
            (w (j * chunk + l) * v (j * chunk + l)) := by
      unfold horizontalSum sumVecLane
      rw [Finset.sum_comm]
      exact Finset.sum_congr rfl fun j _ => lane_sum_eq w v chunk (j * chunk) h32
    rw [hswap, chunked_sum_eq (fun t => w t * v t) chunk (len / chunk),
      Finset.range_eq_Ico,
      Finset.sum_Ico_consecutive _ (Nat.zero_le _) (Nat.div_mul_le_self len chunk)]
  rw [hres]

/-- C7 witness at chunk width 8 on a length-3 row. -/
theorem policy_get_conversion_witness :
    policyGet (fun i => (i : ℤ) + 1) (fun i => 2 * (i : ℤ)) 8 3 7
      = (((∑ j ∈ Finset.range 3, ((j : ℤ) + 1) * (2 * (j : ℤ)) : ℤ) : ℝ)
            / ((QA * FACTOR : ℤ) : ℝ) + ((7 : ℤ) : ℝ)) / ((QB : ℤ) : ℝ) :=
  policy_get_conversion (fun i => (i : ℤ) + 1) (fun i => 2 * (i : ℤ)) 8 3 7
    (by norm_num) (by norm_num)

/-- C10: for every king position, side to move, SEE verdict and move with
source and destination squares below 64 (and, for a promotion, a promotion
piece in knight..queen = 3..6), `map_move_to_index` returns an index
strictly below 3760 = 2 · 1880: the promotion branch tops out at
OFFSETS[64] + 4·22 − 1 = 1879, the non-promotion branch at OFFSETS[64] =
1792, and the SEE classifier adds 0 or exactly OFFSETS[64] + 88 = 1880, so
the unchecked accesses into the policy output arrays of size 1880·2 stay
in bounds. -/
theorem map_move_to_index_lt (kingIdx stm : ℕ) (seePass : Bool) (src dst : ℕ)
    (isPromo : Bool) (promoPc : ℕ)
    (hsrc : src < 64) (hdst : dst < 64)
    (hpromo : isPromo = true → 3 ≤ promoPc ∧ promoPc ≤ 6) :
    map_move_to_index kingIdx stm seePass src dst isPromo promoPc < 3760 := by
  simp only [map_move_to_index]
  set hm := (if kingIdx % 8 > 3 then 7 else 0 : ℕ) with hm_def
  set flip := (if stm = 1 then 56 else 0 : ℕ) with flip_def
  have hhm : hm < 64 := by rw [hm_def]; split_ifs <;> norm_num
  have hflip : flip < 64 := by rw [flip_def]; split_ifs <;> norm_num
  have hsee : (OFFSETS 64 + PROMOS) * (if seePass then 1 else 0) ≤ 1880 := by
    rw [OFFSETS_64_eq]
    unfold PROMOS
    split_ifs <;> omega
  have hidx : (if isPromo then
        OFFSETS 64 + 22 * (promoPc - 3) + (2 * ((src ^^^ hm) % 8) + (dst ^^^ hm) % 8)
      else
        OFFSETS (src ^^^ flip ^^^ hm)
          + popCount64 (allDestinations (src ^^^ flip ^^^ hm)
              &&& ((1 <<< (dst ^^^ flip ^^^ hm)) - 1))) ≤ 1879 := by
    split_ifs with hp
    · obtain ⟨h3, h6⟩ := hpromo hp
      have hff : (src ^^^ hm) % 8 ≤ 7 := Nat.le_of_lt_succ (Nat.mod_lt _ (by norm_num))
      have htf : (dst ^^^ hm) % 8 ≤ 7 := Nat.le_of_lt_succ (Nat.mod_lt _ (by norm_num))
      rw [OFFSETS_64_eq]
      omega
    · have hfrom : src ^^^ flip ^^^ hm < 64 := by
        have h1 : src ^^^ flip < 2 ^ 6 :=
          Nat.xor_lt_two_pow (by simpa using hsrc) (by simpa using hflip)
        simpa using Nat.xor_lt_two_pow h1 (by simpa using hhm)
      have hpc := popCount64_land_le (allDestinations (src ^^^ flip ^^^ hm))
        ((1 <<< (dst ^^^ flip ^^^ hm)) - 1)
      have hstep : OFFSETS (src ^^^ flip ^^^ hm)
            + popCount64 (allDestinations (src ^^^ flip ^^^ hm))
          = OFFSETS ((src ^^^ flip ^^^ hm) + 1) := rfl
      have hmono : OFFSETS ((src ^^^ flip ^^^ hm) + 1) ≤ OFFSETS 64 :=
        OFFSETS_le_of_le (by omega)
      rw [OFFSETS_64_eq] at hmono
      omega
  omega

/-- C10 witness: a non-promotion move from square 6 to square 14 with the
SEE classifier set. -/
theorem map_move_to_index_lt_witness :
    ((6 : ℕ) < 64 ∧ (14 : ℕ) < 64) ∧
      map_move_to_index 4 0 true 6 14 false 4 < 3760 :=
  ⟨by decide, map_move_to_index_lt 4 0 true 6 14 false 4 (by decide) (by decide) (by decide)⟩

end Monty
